import Mathlib

/-! Shallow embedding of the rust-libp2p-chat node: the message fingerprint
function of src/utils/msg.rs, peer-address parsing and seed-based identity
derivation of src/utils/peer.rs, and the startup and event-loop dispatch of
src/main.rs, together with executable models of the external primitives they
call (the std SipHash-1-3 hasher, Keccak-256, base-58, multihash peer ids). -/

namespace Chat

/-- Rotate a 64-bit word (a natural number below 2 to the 64) left by n bits. -/
def rotl64 (x n : Nat) : Nat :=
  (((x % 2 ^ 64) <<< n) % 2 ^ 64) ||| ((x % 2 ^ 64) >>> (64 - n))

/-- State of the std SipHasher13 behind std DefaultHasher. -/
structure SipState where
  v0 : Nat
  v1 : Nat
  v2 : Nat
  v3 : Nat

/-- One SIPROUND of the SipHash permutation, all arithmetic modulo 2 to the 64. -/
def sipRound (s : SipState) : SipState :=
  let v0 := (s.v0 + s.v1) % 2 ^ 64
  let v1 := rotl64 s.v1 13 ^^^ v0
  let v0 := rotl64 v0 32
  let v2 := (s.v2 + s.v3) % 2 ^ 64
  let v3 := rotl64 s.v3 16 ^^^ v2
  let v0 := (v0 + v3) % 2 ^ 64
  let v3 := rotl64 v3 21 ^^^ v0
  let v2 := (v2 + v1) % 2 ^ 64
  let v1 := rotl64 v1 17 ^^^ v2
  let v2 := rotl64 v2 32
  ⟨v0, v1, v2, v3⟩

/-- Absorb one 8-byte message word: SipHash-1-3 uses a single compression round. -/
def sipCompress (s : SipState) (m : Nat) : SipState :=
  let s1 := { s with v3 := s.v3 ^^^ m }
  let s2 := sipRound s1
  { s2 with v0 := s2.v0 ^^^ m }

/-- Little-endian value of a byte list (each byte reduced modulo 256). -/
def leWord (bs : List Nat) : Nat :=
  bs.foldr (fun b acc => acc * 256 + b % 256) 0

/-- Initial SipHash state for the zero key pair used by std DefaultHasher.new. -/
def sipInit : SipState :=
  ⟨0x736f6d6570736575, 0x646f72616e646f6d, 0x6c7967656e657261, 0x7465646279746573⟩

/-- Consume the byte stream 8 bytes at a time; the final partial word carries
the total stream length modulo 256 in its top byte. -/
def sipBlocks (totalLen : Nat) (s : SipState) (bs : List Nat) : SipState :=
  if h : 8 ≤ bs.length then
    sipBlocks totalLen (sipCompress s (leWord (bs.take 8))) (bs.drop 8)
  else
    sipCompress s ((totalLen % 256) * 2 ^ 56 + leWord bs)
termination_by bs.length
decreasing_by simp only [List.length_drop]; omega

/-- Finalization: xor 0xff into v2, three rounds, xor the four words. -/
def sipFinish (s : SipState) : Nat :=
  let s1 := { s with v2 := s.v2 ^^^ 0xff }
  let s2 := sipRound (sipRound (sipRound s1))
  s2.v0 ^^^ s2.v1 ^^^ s2.v2 ^^^ s2.v3

/-- SipHash-1-3 with the zero key over a byte stream, as computed by the
std DefaultHasher created by DefaultHasher.new. -/
def sipHash13 (bs : List Nat) : Nat :=
  sipFinish (sipBlocks bs.length sipInit bs)

/-- The 8 little-endian bytes of a 64-bit word. -/
def u64ToLEBytes (x : Nat) : List Nat :=
  (List.range 8).map fun i => (x >>> (8 * i)) % 256

/-- The gossipsub Message record: optional source peer, payload bytes,
optional sequence number, topic hash. -/
structure Message where
  source : Option (List Nat)
  data : List Nat
  sequence_number : Option Nat
  topic : String

/-- message_id of src/utils/msg.rs: feed message.data into a fresh
DefaultHasher (std Hash for a byte slice first writes the 8-byte length
prefix, then the bytes) and render the 64-bit result in decimal. -/
def message_id (m : Message) : String :=
  Nat.repr (sipHash13 (u64ToLEBytes m.data.length ++ m.data))

/-- Keccak round constants for the 24 rounds of Keccak-f[1600], written in
decimal. -/
def keccakRC : List Nat :=
  [1, 32898, 9223372036854808714,
   9223372039002292224, 32907, 2147483649,
   9223372039002292353, 9223372036854808585, 138,
   136, 2147516425, 2147483658,
   2147516555, 9223372036854775947, 9223372036854808713,
   9223372036854808579, 9223372036854808578, 9223372036854775936,
   32778, 9223372039002259466, 9223372039002292353,
   9223372036854808704, 2147483649, 9223372039002292232]

/-- Keccak rotation offsets, lane index x + 5 * y, one row of the table per
plane y. -/
def keccakRot : List Nat :=
  [0, 1, 62, 28, 27] ++ [36, 44, 6, 55, 20] ++ [3, 10, 43, 25, 39] ++
    [41, 45, 15, 21, 8] ++ [18, 2, 61, 56, 14]

/-- Keccak theta step on a 25-lane state. -/
def theta (a : List Nat) : List Nat :=
  let c := (List.range 5).map fun x =>
    a.getD x 0 ^^^ a.getD (x + 5) 0 ^^^ a.getD (x + 10) 0 ^^^
      a.getD (x + 15) 0 ^^^ a.getD (x + 20) 0
  let d := (List.range 5).map fun x =>
    c.getD ((x + 4) % 5) 0 ^^^ rotl64 (c.getD ((x + 1) % 5) 0) 1
  (List.range 25).map fun i => a.getD i 0 ^^^ d.getD (i % 5) 0

/-- Keccak rho and pi steps combined. -/
def rhoPi (a : List Nat) : List Nat :=
  (List.range 25).map fun i =>
    let xO := i % 5
    let yO := i / 5
    let xS := (xO + 3 * yO) % 5
    let yS := xO
    rotl64 (a.getD (xS + 5 * yS) 0) (keccakRot.getD (xS + 5 * yS) 0)

/-- Keccak chi step. -/
def chi (a : List Nat) : List Nat :=
  (List.range 25).map fun i =>
    let x := i % 5
    let y := i / 5
    a.getD i 0 ^^^
      ((a.getD ((x + 1) % 5 + 5 * y) 0 ^^^ 0xFFFFFFFFFFFFFFFF) &&&
        a.getD ((x + 2) % 5 + 5 * y) 0)

/-- Keccak iota step: xor the round constant into lane (0, 0). -/
def iota (rc : Nat) (a : List Nat) : List Nat :=
  match a with
  | [] => []
  | lane0 :: rest => (lane0 ^^^ rc) :: rest

/-- The full Keccak-f[1600] permutation. -/
def keccakF (a : List Nat) : List Nat :=
  keccakRC.foldl (fun st rc => iota rc (chi (rhoPi (theta st)))) a

/-- Original Keccak pad10star1 padding (domain byte 0x01, as in the sha3
crate Keccak256 type), rate 136 bytes. -/
def keccakPadded (m : List Nat) : List Nat :=
  let r := 136 - m.length % 136
  if r = 1 then m ++ [0x81]
  else m ++ 0x01 :: (List.replicate (r - 2) 0 ++ [0x80])

/-- Xor one 136-byte block into the first 17 lanes and permute. -/
def absorbBlock (st : List Nat) (block : List Nat) : List Nat :=
  keccakF ((List.range 25).map fun i =>
    st.getD i 0 ^^^ (if i < 17 then leWord ((block.drop (8 * i)).take 8) else 0))

/-- Absorb a padded message block by block. -/
def keccakLoop (st : List Nat) (bs : List Nat) : List Nat :=
  match bs with
  | [] => st
  | b :: rest => keccakLoop (absorbBlock st ((b :: rest).take 136)) ((b :: rest).drop 136)
termination_by bs.length
decreasing_by simp only [List.length_drop, List.length_cons]; omega

/-- Keccak-256 of a byte list: absorb, then squeeze the first 32 bytes
(the first four lanes, little-endian). -/
def keccak256 (m : List Nat) : List Nat :=
  let st := keccakLoop (List.replicate 25 0) (keccakPadded m)
  u64ToLEBytes (st.getD 0 0) ++ u64ToLEBytes (st.getD 1 0) ++
    u64ToLEBytes (st.getD 2 0) ++ u64ToLEBytes (st.getD 3 0)

/-- An Ed25519 keypair, modelled by the 32 secret bytes that determine it:
the public key and hence the peer id are pure functions of this material. -/
structure Keypair where
  secret : List Nat

/-- Models libp2p Keypair.ed25519_from_bytes: succeeds exactly on 32 bytes of
secret key material. -/
def Keypair.ed25519_from_bytes (bs : List Nat) : Except String Keypair :=
  if bs.length = 32 then .ok ⟨bs⟩ else .error "expected 32 bytes of ed25519 key material"

/-- ed25519_from_seed of src/utils/peer.rs: Keccak-256 the UTF-8 bytes of the
seed and derive the keypair from the digest. -/
def ed25519_from_seed (seed : List Nat) : Except String Keypair :=
  Keypair.ed25519_from_bytes (keccak256 seed)

/-- The Bitcoin base-58 alphabet used by the bs58 crate. -/
def b58Alphabet : List Char :=
  ['1', '2', '3', '4', '5', '6', '7', '8', '9', 'A', 'B', 'C', 'D', 'E', 'F',
   'G', 'H', 'J', 'K', 'L', 'M', 'N', 'P', 'Q', 'R', 'S', 'T', 'U', 'V', 'W',
   'X', 'Y', 'Z', 'a', 'b', 'c', 'd', 'e', 'f', 'g', 'h', 'i', 'j', 'k', 'm',
   'n', 'o', 'p', 'q', 'r', 's', 't', 'u', 'v', 'w', 'x', 'y', 'z']

/-- The alphabet character of a base-58 digit. -/
def b58Char (d : Nat) : Char := b58Alphabet.getD d '?'

/-- The base-58 digit of a character, none when it is not in the alphabet. -/
def b58Index (c : Char) : Option Nat := b58Alphabet.findIdx? fun x => x == c

/-- Map every character of a string to its base-58 digit. -/
def b58DigitsOf : List Char → Option (List Nat)
  | [] => some []
  | c :: cs =>
    match b58Index c, b58DigitsOf cs with
    | some d, some ds => some (d :: ds)
    | _, _ => none

/-- Number of leading zero entries of a list of naturals. -/
def countLeadingZeros : List Nat → Nat
  | [] => 0
  | d :: rest => if d = 0 then countLeadingZeros rest + 1 else 0

/-- Big-endian value of a digit list in base b. -/
def beVal (b : Nat) (l : List Nat) : Nat :=
  l.foldl (fun acc d => acc * b + d) 0

/-- Fuelled big-endian digit expansion (the fuel makes it structurally
recursive and hence kernel-reducible on concrete inputs). -/
def natToBEAux (b : Nat) : Nat → Nat → List Nat
  | 0, _ => []
  | fuel + 1, n => if n = 0 then [] else natToBEAux b fuel (n / b) ++ [n % b]

/-- Minimal big-endian digits of n in base b. -/
def natToBE (b n : Nat) : List Nat := natToBEAux b n n

/-- Models bs58 encoding: one alphabet character per digit of the big-endian
base-58 expansion, with a leading 1 per leading zero byte. -/
def bs58encode (bytes : List Nat) : List Char :=
  List.replicate (countLeadingZeros bytes) '1' ++
    (natToBE 58 (beVal 256 bytes)).map b58Char

/-- Models bs58 decoding: map characters to digits (failing on characters
outside the alphabet), rebuild the big-endian value, and restore one zero
byte per leading 1 character. -/
def bs58decode (s : List Char) : Option (List Nat) :=
  (b58DigitsOf s).map fun ds =>
    List.replicate (countLeadingZeros ds) 0 ++ natToBE 256 (beVal 58 ds)

/-- Models unsigned-varint decoding (LEB128 with the not-minimal check:
a continuation followed by a zero-valued tail is rejected). -/
def readUvarint : List Nat → Option (Nat × List Nat)
  | [] => none
  | b :: rest =>
    if b % 256 < 128 then some (b % 256, rest)
    else
      match readUvarint rest with
      | some (v, r) => if v = 0 then none else some (b % 256 - 128 + 128 * v, r)
      | none => none

/-- Models PeerId.from_bytes: parse a multihash (code varint, size varint with
size at most 64, exactly size digest bytes, nothing left over) and accept it
when the code is sha2-256 (0x12) or identity (0x00) with digest at most 42
bytes. A peer id is identified with its multihash byte representation, which
is what to_bytes returns. -/
def peerIdFromBytes (bs : List Nat) : Option (List Nat) :=
  match readUvarint bs with
  | none => none
  | some (code, r1) =>
    match readUvarint r1 with
    | none => none
    | some (size, r2) =>
      if size ≤ 64 ∧ r2.length = size ∧ (code = 18 ∨ (code = 0 ∧ size ≤ 42)) then
        some bs
      else none

/-- The delimiter string of parse_peer_id, as a character list. -/
def p2pSep : List Char := ['/', 'p', '2', 'p', '/']

/-- The delimiter without its final slash; an address ending in these four
characters can make the split consume a straddling occurrence. -/
def pTail : List Char := ['/', 'p', '2', 'p']

/-- Fuelled worker for Rust str.split with the literal pattern /p2p/: emit the
accumulated segment at each leftmost non-overlapping occurrence. The fuel
(at least the length of the string) makes it structurally recursive. -/
def splitAux : Nat → List Char → List Char → List (List Char)
  | _, [], acc => [acc.reverse]
  | 0, s, acc => [acc.reverse ++ s]
  | fuel + 1, c :: rest, acc =>
    if p2pSep.isPrefixOf (c :: rest) then acc.reverse :: splitAux fuel (rest.drop 4) []
    else splitAux fuel rest (c :: acc)

/-- Rust addr.split on the /p2p/ pattern, collected into a vector. -/
def split (s : List Char) : List (List Char) := splitAux s.length s []

/-- Whether the delimiter occurs anywhere in the string. -/
def containsSep : List Char → Bool
  | [] => false
  | c :: rest => p2pSep.isPrefixOf (c :: rest) || containsSep rest

/-- parse_peer_id of src/utils/peer.rs: split on /p2p/, take the last part,
base-58 decode it, and parse the bytes as a peer id, any failure becoming an
error return. -/
def parse_peer_id (addr : List Char) : Except String (List Nat) :=
  match (split addr).getLast? with
  | none => .error "Cannot parse peer id."
  | some str =>
    match bs58decode str with
    | none => .error "failed to decode the base-58 segment"
    | some buf =>
      match peerIdFromBytes buf with
      | none => .error "decoded bytes are not a well-formed peer id"
      | some id => .ok id

/-- The slice of Kademlia configuration the program touches: the query
timeout, in seconds. -/
structure KadConfig where
  queryTimeout : Nat

/-- Models kad Config.default, whose query timeout is 60 seconds. -/
def KadConfig.default : KadConfig := { queryTimeout := 60 }

/-- Models Config.set_query_timeout, the duration given in seconds. -/
def KadConfig.set_query_timeout (c : KadConfig) (t : Nat) : KadConfig :=
  { c with queryTimeout := t }

/-- The configuration built in main.rs: default then set_query_timeout of
Duration.from_secs (5 * 60). -/
def mainKadConfig : KadConfig := KadConfig.default.set_query_timeout (5 * 60)

/-- A peer id value as carried by swarm events. -/
abbrev PeerIdB := List Nat

/-- One console line the event loop can print, by which println call emits it. -/
inductive LogLine where
  | listening (addr : String)
  | connecting (addr : String)
  | connected (peer : PeerIdB)
  | disconnected (peer : PeerIdB)
  | identifyNew (peer : PeerIdB)
  | kadBootstrapped (peer : PeerIdB)
  | kadDiscovered (peers : List PeerIdB)
  | messageFrom (peer : PeerIdB) (data : List Nat)
  | bootstrapFailed
  | fallback (tag : Nat)

/-- The swarm events distinguished by the match in the event loop of main.rs;
every shape not matched by a recognized arm is collapsed into other. -/
inductive SwarmEvt where
  | newListenAddr (addr : String)
  | incomingConnection (addr : String)
  | connectionEstablished (peer : PeerIdB)
  | connectionClosed (peer : PeerIdB)
  | identifyReceived (peer : PeerIdB) (protocols : List String) (listenAddrs : List String)
  | kadBootstrapProgressed (peer : PeerIdB)
  | kadGetClosestPeers (peers : List PeerIdB)
  | gossipsubMessage (source : PeerIdB) (message : Message)
  | other (tag : Nat)

/-- kad PROTOCOL_NAME. -/
def kadProtocolName : String := "/ipfs/kad/1.0.0"

/-- The mutable state the event loop threads through dispatch: the sequence of
add_address calls made to the Kademlia behaviour. -/
structure NodeState where
  kademliaAddresses : List (PeerIdB × String)

/-- One iteration of the event arm of the select loop in main.rs (lines
142-201): returns the updated state and the console lines printed. -/
def handleEvent (silent : Bool) (selfId : PeerIdB) (st : NodeState) :
    SwarmEvt → NodeState × List LogLine
  | .newListenAddr a => (st, [.listening a])
  | .incomingConnection a => (st, [.connecting a])
  | .connectionEstablished p => (st, [.connected p])
  | .connectionClosed p => (st, [.disconnected p])
  | .identifyReceived p protos addrs =>
    ({ st with kademliaAddresses :=
        if protos.contains kadProtocolName then
          addrs.foldl (fun t a => t ++ [(p, a)]) st.kademliaAddresses
        else st.kademliaAddresses },
      [.identifyNew p])
  | .kadBootstrapProgressed p =>
    (st, if p ≠ selfId then [.kadBootstrapped p] else [])
  | .kadGetClosestPeers ps => (st, [.kadDiscovered ps])
  | .gossipsubMessage src m => (st, [.messageFrom src m.data])
  | .other tag => (st, if silent != true then [.fallback tag] else [])

/-- The bootstrap section of main.rs (lines 113-123): when a bootstrap target
is given, parse it (the question-mark operator makes a parse failure fatal),
then issue the bootstrap call; a bootstrap error is only printed. The result
carries whether bootstrap was attempted and the lines printed; ok means
execution fell through to the event loop. The multiaddr parse of the target
(an external library call) is passed in as an oracle. -/
def bootstrapPhase (bootstrap : Option (List Char))
    (multiaddrOf : List Char → Except String Unit)
    (bootstrapCall : Except String Unit) : Except String (Bool × List LogLine) :=
  match bootstrap with
  | none => .ok (false, [])
  | some addr => do
    let _peer ← parse_peer_id addr
    let _ma ← multiaddrOf addr
    match bootstrapCall with
    | .ok _ => pure (true, [])
    | .error _ => pure (true, [.bootstrapFailed])

/-! Helper lemmas about prefixes, suffixes and the split worker. -/

theorem isPrefixOf_exists {p s : List Char} (h : p.isPrefixOf s = true) :
    ∃ t, s = p ++ t := by
  induction p generalizing s with
  | nil => exact ⟨s, rfl⟩
  | cons a p ih =>
    cases s with
    | nil => simp [List.isPrefixOf] at h
    | cons b s =>
      simp only [List.isPrefixOf, Bool.and_eq_true, beq_iff_eq] at h
      obtain ⟨rfl, h2⟩ := h
      obtain ⟨t, rfl⟩ := ih h2
      exact ⟨t, rfl⟩

theorem isPrefixOf_append (p t : List Char) : p.isPrefixOf (p ++ t) = true := by
  induction p with
  | nil => simp [List.isPrefixOf]
  | cons a p ih => simp [List.isPrefixOf, ih]

theorem isSuffixOf_exists {p s : List Char} (h : p.isSuffixOf s = true) :
    ∃ t, s = t ++ p := by
  unfold List.isSuffixOf at h
  obtain ⟨t, ht⟩ := isPrefixOf_exists h
  refine ⟨t.reverse, ?_⟩
  have h2 := congrArg List.reverse ht
  simpa [List.reverse_append] using h2

theorem isSuffixOf_append (t p : List Char) : p.isSuffixOf (t ++ p) = true := by
  unfold List.isSuffixOf
  rw [List.reverse_append]
  exact isPrefixOf_append p.reverse t.reverse

theorem suffix_false_mono (pre A : List Char)
    (h : pTail.isSuffixOf (pre ++ A) = false) : pTail.isSuffixOf A = false := by
  cases hA : pTail.isSuffixOf A with
  | false => rfl
  | true =>
    obtain ⟨t, rfl⟩ := isSuffixOf_exists hA
    rw [← List.append_assoc, isSuffixOf_append] at h
    exact Bool.noConfusion h

theorem splitAux_ne_nil : ∀ (fuel : Nat) (s acc : List Char), splitAux fuel s acc ≠ [] := by
  intro fuel
  induction fuel with
  | zero => intro s acc; cases s <;> simp [splitAux]
  | succ f ih =>
    intro s acc
    cases s with
    | nil => simp [splitAux]
    | cons c rest =>
      simp only [splitAux]
      split
      · simp
      · exact ih rest (c :: acc)

theorem containsSep_eq_false {B : List Char} (hB : ('/' : Char) ∉ B) :
    containsSep B = false := by
  induction B with
  | nil => rfl
  | cons c rest ih =>
    simp only [List.mem_cons, not_or] at hB
    have h1 : p2pSep.isPrefixOf (c :: rest) = false := by
      cases hp : p2pSep.isPrefixOf (c :: rest) with
      | false => rfl
      | true =>
        obtain ⟨t, ht⟩ := isPrefixOf_exists hp
        simp only [p2pSep, List.cons_append, List.cons.injEq] at ht
        exact absurd ht.1.symm hB.1
    simp [containsSep, h1, ih hB.2]

theorem splitAux_of_no_sep : ∀ (fuel : Nat) (s acc : List Char),
    containsSep s = false → s.length ≤ fuel →
    splitAux fuel s acc = [acc.reverse ++ s] := by
  intro fuel
  induction fuel with
  | zero =>
    intro s acc _ hlen
    have hnil : s = [] := List.eq_nil_of_length_eq_zero (Nat.le_zero.mp hlen)
    subst hnil
    simp [splitAux]
  | succ f ih =>
    intro s acc hs hlen
    cases s with
    | nil => simp [splitAux]
    | cons c rest =>
      simp only [containsSep, Bool.or_eq_false_iff] at hs
      simp only [splitAux, hs.1, Bool.false_eq_true, if_false]
      rw [ih rest (c :: acc) hs.2 (by simp at hlen; omega)]
      simp

theorem getLast?_cons_of_ne_nil {α : Type} (x : α) {l : List α} (h : l ≠ []) :
    (x :: l).getLast? = l.getLast? := by
  cases l with
  | nil => exact absurd rfl h
  | cons y ys => exact List.getLast?_cons_cons

theorem splitAux_last (fuel : Nat) : ∀ (A B acc : List Char),
    A.length + 5 + B.length ≤ fuel →
    pTail.isSuffixOf A = false →
    ('/' : Char) ∉ B →
    (splitAux fuel (A ++ p2pSep ++ B) acc).getLast? = some B := by
  induction fuel with
  | zero =>
    intro A B acc hlen _ _
    exact absurd hlen (by omega)
  | succ f ih =>
    intro A B acc hlen hA hB
    cases A with
    | nil =>
      have hpre : p2pSep.isPrefixOf ('/' :: 'p' :: '2' :: 'p' :: '/' :: B) = true :=
        isPrefixOf_append p2pSep B
      show (splitAux (f + 1) ('/' :: 'p' :: '2' :: 'p' :: '/' :: B) acc).getLast? = some B
      simp only [splitAux]
      rw [if_pos hpre]
      rw [getLast?_cons_of_ne_nil _ (splitAux_ne_nil f _ [])]
      show (splitAux f B []).getLast? = some B
      rw [splitAux_of_no_sep f B [] (containsSep_eq_false hB) (by simp at hlen; omega)]
      simp
    | cons a A2 =>
      cases hpre : p2pSep.isPrefixOf ((a :: A2) ++ p2pSep ++ B) with
      | true =>
        obtain ⟨t, ht⟩ := isPrefixOf_exists hpre
        rcases A2 with _ | ⟨b, _ | ⟨c, _ | ⟨d, _ | ⟨e, A5⟩⟩⟩⟩
        · simp only [p2pSep, List.cons_append, List.nil_append, List.cons.injEq] at ht
          exact absurd ht.2.1 (by decide)
        · simp only [p2pSep, List.cons_append, List.nil_append, List.cons.injEq] at ht
          exact absurd ht.2.2.1 (by decide)
        · simp only [p2pSep, List.cons_append, List.nil_append, List.cons.injEq] at ht
          exact absurd ht.2.2.2.1 (by decide)
        · simp only [p2pSep, List.cons_append, List.nil_append, List.cons.injEq] at ht
          obtain ⟨rfl, rfl, rfl, rfl, -⟩ := ht
          exact absurd hA (by decide)
        · simp only [p2pSep, List.cons_append, List.nil_append, List.cons.injEq] at ht
          obtain ⟨rfl, rfl, rfl, rfl, rfl, -⟩ := ht
          simp only [List.cons_append] at hpre
          show (splitAux (f + 1)
            ('/' :: 'p' :: '2' :: 'p' :: '/' :: (A5 ++ p2pSep ++ B)) acc).getLast? = some B
          simp only [splitAux]
          rw [if_pos hpre]
          rw [getLast?_cons_of_ne_nil _ (splitAux_ne_nil f _ [])]
          show (splitAux f (A5 ++ p2pSep ++ B) []).getLast? = some B
          exact ih A5 B [] (by simp at hlen ⊢; omega)
            (suffix_false_mono p2pSep A5 hA) hB
      | false =>
        have hpre2 : p2pSep.isPrefixOf (a :: (A2 ++ p2pSep ++ B)) = false := hpre
        show (splitAux (f + 1) (a :: (A2 ++ p2pSep ++ B)) acc).getLast? = some B
        simp only [splitAux]
        rw [if_neg (fun hc => Bool.noConfusion (hpre2 ▸ hc))]
        exact ih A2 B (a :: acc) (by simp at hlen ⊢; omega)
          (suffix_false_mono [a] A2 hA) hB

theorem split_getLast?_eq_some (s : List Char) : ∃ seg, (split s).getLast? = some seg := by
  have hne := splitAux_ne_nil s.length s []
  cases h : splitAux s.length s [] with
  | nil => exact absurd h hne
  | cons a l =>
    cases hl : (a :: l).getLast? with
    | none => exact absurd (List.getLast?_eq_none_iff.mp hl) (by simp)
    | some x => exact ⟨x, by simp [split, h, hl]⟩

/-- Claim C10: an input with no /p2p/ delimiter that is itself a valid base-58
encoding of well-formed peer-id bytes is accepted by parse_peer_id: the split
leaves the whole input as the last segment, which is then decoded. -/
theorem parse_peer_id_bare_identifier (s : List Char) (bs : List Nat)
    (h1 : containsSep s = false) (h2 : bs58decode s = some bs)
    (h3 : peerIdFromBytes bs = some bs) : parse_peer_id s = .ok bs := by
  have hsplit : split s = [s] := by
    have h := splitAux_of_no_sep s.length s [] h1 (Nat.le_refl _)
    simpa [split] using h
  simp [parse_peer_id, hsplit, h2, h3]

/-- Witness for C10 at the concrete bare identifier "11", the base-58 encoding
of the identity multihash with empty digest. -/
theorem parse_peer_id_bare_identifier_witness :
    parse_peer_id ['1', '1'] = .ok [0, 0] :=
  parse_peer_id_bare_identifier ['1', '1'] [0, 0] rfl rfl rfl

/-- Counterexample to claim C2 as stated: on the input "11" the delimiter
/p2p/ does not occur, yet parse_peer_id returns a peer id rather than an
error (the whole input is the last segment and decodes to the identity
multihash with empty digest). -/
theorem parse_peer_id_no_delimiter_counterexample :
    containsSep ['1', '1'] = false ∧ parse_peer_id ['1', '1'] = .ok [0, 0] :=
  ⟨rfl, rfl⟩

/-- Claim C2 (amended): parse_peer_id fails exactly when the final
segment of the input separated by /p2p/ (the whole input when the delimiter is
absent) is not valid base-58 or its decoded bytes are not a well-formed peer
id; absence of the delimiter alone does not cause an error. -/
theorem parse_peer_id_error_iff (s : List Char) :
    (parse_peer_id s).isOk = false ↔
      ∃ seg, (split s).getLast? = some seg ∧
        (bs58decode seg = none ∨
          ∃ buf, bs58decode seg = some buf ∧ peerIdFromBytes buf = none) := by
  obtain ⟨seg, hseg⟩ := split_getLast?_eq_some s
  unfold parse_peer_id
  rw [hseg]
  cases hd : bs58decode seg with
  | none => simp [hseg, hd, Except.isOk, Except.toBool]
  | some buf =>
    cases hp : peerIdFromBytes buf with
    | none => simp [hseg, hd, hp, Except.isOk, Except.toBool]
    | some id => simp [hseg, hd, hp, Except.isOk, Except.toBool]

/-- Witness for the amended C2 at the concrete input "0", whose single
character is outside the base-58 alphabet. -/
theorem parse_peer_id_error_iff_witness : (parse_peer_id ['0']).isOk = false :=
  (parse_peer_id_error_iff ['0']).mpr ⟨['0'], rfl, Or.inl rfl⟩

/-! Base-58 round trip. -/

theorem beVal_foldl (b : Nat) (l : List Nat) : ∀ a : Nat,
    l.foldl (fun acc x => acc * b + x) a =
      a * b ^ l.length + l.foldl (fun acc x => acc * b + x) 0 := by
  induction l with
  | nil => intro a; simp
  | cons d l ih =>
    intro a
    simp only [List.foldl_cons, List.length_cons]
    rw [ih (a * b + d), ih (0 * b + d)]
    ring

theorem beVal_cons (b d : Nat) (l : List Nat) :
    beVal b (d :: l) = d * b ^ l.length + beVal b l := by
  simp only [beVal, List.foldl_cons]
  rw [beVal_foldl b l (0 * b + d)]
  ring

theorem beVal_eq_ofDigits (b : Nat) (l : List Nat) :
    beVal b l = Nat.ofDigits b l.reverse := by
  induction l with
  | nil => simp [beVal]
  | cons d l ih =>
    rw [beVal_cons, List.reverse_cons, Nat.ofDigits_append, ih]
    simp [Nat.ofDigits_singleton]
    ring

theorem natToBEAux_eq {b : Nat} (hb : 2 ≤ b) : ∀ (fuel n : Nat), n ≤ fuel →
    natToBEAux b fuel n = (Nat.digits b n).reverse := by
  intro fuel
  induction fuel with
  | zero =>
    intro n hn
    have h0 : n = 0 := Nat.le_zero.mp hn
    subst h0
    simp [natToBEAux]
  | succ f ih =>
    intro n hn
    by_cases h0 : n = 0
    · subst h0; simp [natToBEAux]
    · have hlt : n / b < n := Nat.div_lt_self (Nat.pos_of_ne_zero h0) (by omega)
      simp only [natToBEAux, h0, if_false]
      rw [ih (n / b) (by omega),
        Nat.digits_def' (show 1 < b by omega) (Nat.pos_of_ne_zero h0)]
      simp

theorem natToBE_eq {b : Nat} (hb : 2 ≤ b) (n : Nat) :
    natToBE b n = (Nat.digits b n).reverse :=
  natToBEAux_eq hb n n (Nat.le_refl n)

theorem natToBE_lt {b : Nat} (hb : 2 ≤ b) (n : Nat) :
    ∀ d ∈ natToBE b n, d < b := by
  intro d hd
  rw [natToBE_eq hb] at hd
  exact Nat.digits_lt_base (by omega) (List.mem_reverse.mp hd)

theorem b58Index_b58Char : ∀ d : Nat, d < 58 → b58Index (b58Char d) = some d := by
  have h : ∀ d ∈ List.range 58, b58Index (b58Char d) = some d := by decide
  intro d hd
  exact h d (List.mem_range.mpr hd)

theorem b58Char_ne_slash : ∀ d : Nat, d < 58 → b58Char d ≠ '/' := by
  have h : ∀ d ∈ List.range 58, b58Char d ≠ '/' := by decide
  intro d hd
  exact h d (List.mem_range.mpr hd)

theorem b58DigitsOf_append {xs ys : List Char} {dxs dys : List Nat}
    (hx : b58DigitsOf xs = some dxs) (hy : b58DigitsOf ys = some dys) :
    b58DigitsOf (xs ++ ys) = some (dxs ++ dys) := by
  induction xs generalizing dxs with
  | nil =>
    simp only [b58DigitsOf, Option.some.injEq] at hx
    subst hx
    simpa using hy
  | cons c cs ih =>
    simp only [b58DigitsOf] at hx ⊢
    cases hc : b58Index c with
    | none => rw [hc] at hx; exact absurd hx (by simp)
    | some d =>
      rw [hc] at hx
      cases hcs : b58DigitsOf cs with
      | none => rw [hcs] at hx; exact absurd hx (by simp)
      | some ds =>
        rw [hcs] at hx
        simp only [Option.some.injEq] at hx
        subst hx
        simp only [List.append_eq]
        rw [ih hcs]
        rfl

theorem b58DigitsOf_replicate_one (z : Nat) :
    b58DigitsOf (List.replicate z '1') = some (List.replicate z 0) := by
  induction z with
  | zero => rfl
  | succ n ih =>
    simp only [List.replicate_succ, b58DigitsOf, ih]
    rfl

theorem b58DigitsOf_map (ds : List Nat) (h : ∀ d ∈ ds, d < 58) :
    b58DigitsOf (ds.map b58Char) = some ds := by
  induction ds with
  | nil => rfl
  | cons d ds ih =>
    simp only [List.map_cons, b58DigitsOf]
    rw [b58Index_b58Char d (h d (List.mem_cons_self d ds)),
      ih fun x hx => h x (List.mem_cons_of_mem d hx)]

theorem clz_replicate (z : Nat) : countLeadingZeros (List.replicate z 0) = z := by
  induction z with
  | zero => rfl
  | succ n ih => simp [List.replicate_succ, countLeadingZeros, ih]

theorem clz_replicate_append (z d : Nat) (t : List Nat) (hd : d ≠ 0) :
    countLeadingZeros (List.replicate z 0 ++ d :: t) = z := by
  induction z with
  | zero => simp [countLeadingZeros, hd]
  | succ n ih => simp [List.replicate_succ, countLeadingZeros, ih]

theorem clz_decomp (l : List Nat) :
    ∃ rest, l = List.replicate (countLeadingZeros l) 0 ++ rest ∧
      (rest = [] ∨ ∃ d t, rest = d :: t ∧ d ≠ 0) := by
  induction l with
  | nil => exact ⟨[], rfl, Or.inl rfl⟩
  | cons x xs ih =>
    by_cases hx : x = 0
    · subst hx
      obtain ⟨rest, heq, hor⟩ := ih
      refine ⟨rest, ?_, hor⟩
      simp only [countLeadingZeros, if_pos rfl, List.replicate_succ, List.cons_append]
      exact congrArg (List.cons 0) heq
    · exact ⟨x :: xs, by simp [countLeadingZeros, hx], Or.inr ⟨x, xs, rfl, hx⟩⟩

theorem beVal_replicate_zero_append (b z : Nat) (rest : List Nat) :
    beVal b (List.replicate z 0 ++ rest) = beVal b rest := by
  induction z with
  | zero => simp
  | succ n ih =>
    have hstep : beVal b (0 :: (List.replicate n 0 ++ rest)) =
        beVal b (List.replicate n 0 ++ rest) := by
      simp [beVal]
    rw [List.replicate_succ, List.cons_append, hstep, ih]

theorem beVal_ne_zero {b : Nat} (hb : 1 ≤ b) (d : Nat) (t : List Nat) (hd : d ≠ 0) :
    beVal b (d :: t) ≠ 0 := by
  rw [beVal_cons]
  have hpow : 0 < b ^ t.length := Nat.pos_pow_of_pos t.length (by omega)
  have : 0 < d * b ^ t.length := Nat.mul_pos (Nat.pos_of_ne_zero hd) hpow
  omega

theorem bs58_roundtrip (bytes : List Nat) (hb : ∀ x ∈ bytes, x < 256) :
    bs58decode (bs58encode bytes) = some bytes := by
  obtain ⟨rest, hdecomp, hor⟩ := clz_decomp bytes
  cases hor with
  | inl hnil =>
    subst hnil
    rw [List.append_nil] at hdecomp
    have hv0 : beVal 256 bytes = 0 := by
      rw [hdecomp]
      simpa using beVal_replicate_zero_append 256 (countLeadingZeros bytes) []
    have henc : bs58encode bytes = List.replicate (countLeadingZeros bytes) '1' := by
      simp [bs58encode, hv0, natToBE, natToBEAux]
    rw [henc]
    simp only [bs58decode, b58DigitsOf_replicate_one, Option.map_some', clz_replicate]
    have hv58 : beVal 58 (List.replicate (countLeadingZeros bytes) 0) = 0 := by
      simpa using beVal_replicate_zero_append 58 (countLeadingZeros bytes) []
    rw [hv58]
    simp [natToBE, natToBEAux, ← hdecomp]
  | inr hr =>
    obtain ⟨d, t, rfl, hd⟩ := hr
    have hVne : beVal 256 bytes ≠ 0 := by
      rw [hdecomp, beVal_replicate_zero_append]
      exact beVal_ne_zero (by omega) d t hd
    have hd58 : Nat.digits 58 (beVal 256 bytes) ≠ [] :=
      Nat.digits_ne_nil_iff_ne_zero.mpr hVne
    obtain ⟨L, a, hL⟩ := (Nat.digits 58 (beVal 256 bytes)).eq_nil_or_concat.resolve_left hd58
    rw [List.concat_eq_append] at hL
    have h3 : (Nat.digits 58 (beVal 256 bytes)).getLast? = some a := by
      rw [hL]; exact List.getLast?_concat L
    have ha : a ≠ 0 := by
      have h5 := List.getLast?_eq_getLast (Nat.digits 58 (beVal 256 bytes)) hd58
      rw [h3] at h5
      exact (Option.some.inj h5) ▸ Nat.getLast_digit_ne_zero 58 hVne
    have hnat : natToBE 58 (beVal 256 bytes) = a :: L.reverse := by
      rw [natToBE_eq (by omega), hL]
      simp
    have h58 : ∀ x ∈ a :: L.reverse, x < 58 := by
      intro x hx
      apply Nat.digits_lt_base (show 1 < 58 by omega) (m := beVal 256 bytes)
      rw [hL]
      simp only [List.mem_cons, List.mem_reverse] at hx
      simp only [List.mem_append, List.mem_singleton]
      tauto
    have henc : bs58encode bytes =
        List.replicate (countLeadingZeros bytes) '1' ++ (a :: L.reverse).map b58Char := by
      rw [bs58encode, hnat]
    rw [henc]
    simp only [bs58decode]
    rw [b58DigitsOf_append (b58DigitsOf_replicate_one (countLeadingZeros bytes))
      (b58DigitsOf_map (a :: L.reverse) h58)]
    simp only [Option.map_some', Option.some.injEq]
    rw [clz_replicate_append _ a L.reverse ha]
    have hv : beVal 58 (List.replicate (countLeadingZeros bytes) 0 ++ (a :: L.reverse)) =
        beVal 256 bytes := by
      rw [beVal_replicate_zero_append, beVal_eq_ofDigits]
      have hrev : (a :: L.reverse).reverse = L ++ [a] := by simp
      rw [hrev, ← hL, Nat.ofDigits_digits]
    rw [hv]
    have hdig : Nat.digits 256 (beVal 256 bytes) = t.reverse ++ [d] := by
      have hV256 : beVal 256 bytes = Nat.ofDigits 256 (t.reverse ++ [d]) := by
        rw [hdecomp, beVal_replicate_zero_append, beVal_eq_ofDigits]
        simp
      rw [hV256]
      apply Nat.digits_ofDigits 256 (by omega)
      · intro x hx
        apply hb
        rw [hdecomp]
        simp only [List.mem_append, List.mem_singleton, List.mem_reverse] at hx
        simp only [List.mem_append, List.mem_cons]
        tauto
      · intro hne
        have hlast : (t.reverse ++ [d]).getLast hne = d := by
          have h6 := List.getLast?_eq_getLast (t.reverse ++ [d]) hne
          rw [List.getLast?_concat] at h6
          exact (Option.some.inj h6).symm
        rw [hlast]
        exact hd
    have hnat256 : natToBE 256 (beVal 256 bytes) = d :: t := by
      rw [natToBE_eq (by omega), hdig]
      simp
    rw [hnat256, ← hdecomp]

theorem bs58encode_no_slash (bytes : List Nat) : ('/' : Char) ∉ bs58encode bytes := by
  intro hmem
  simp only [bs58encode, List.mem_append] at hmem
  cases hmem with
  | inl h => exact absurd (List.eq_of_mem_replicate h) (by decide)
  | inr h =>
    obtain ⟨d, hd, hchar⟩ := List.mem_map.mp h
    exact b58Char_ne_slash d (natToBE_lt (by omega) _ d hd) hchar

/-- Counterexample to claim C3 as stated: for the well-formed peer id bytes
[0, 0] (identity multihash with empty digest, encoded "11") and the network
address "/dns/p2p" (a syntactically valid multiaddr naming host p2p over dns),
parse_peer_id applied to the formatted string does not return the identifier:
the split consumes the occurrence of /p2p/ that straddles the address and the
appended delimiter, leaving the segment "p2p/11", which fails to decode. -/
theorem parse_peer_id_roundtrip_counterexample :
    (∀ x ∈ ([0, 0] : List Nat), x < 256) ∧
    peerIdFromBytes [0, 0] = some [0, 0] ∧
    bs58encode [0, 0] = ['1', '1'] ∧
    (parse_peer_id (['/', 'd', 'n', 's', '/', 'p', '2', 'p'] ++ p2pSep ++
      bs58encode [0, 0])).toOption = none :=
  ⟨by decide, rfl, rfl, rfl⟩

/-- Claim C3 (amended): for every well-formed peer id and every network
address string that does not end in the four characters /p2p, parsing the
string formed as the address, the /p2p/ delimiter, and the base-58 encoding
of the peer id bytes returns exactly that peer id. -/
theorem parse_peer_id_roundtrip (A : List Char) (bs : List Nat)
    (hb : ∀ x ∈ bs, x < 256)
    (hid : peerIdFromBytes bs = some bs)
    (hA : pTail.isSuffixOf A = false) :
    parse_peer_id (A ++ p2pSep ++ bs58encode bs) = .ok bs := by
  have hlast : (split (A ++ p2pSep ++ bs58encode bs)).getLast? = some (bs58encode bs) := by
    have h := splitAux_last (A ++ p2pSep ++ bs58encode bs).length A (bs58encode bs) []
      (by simp [p2pSep]; omega) hA (bs58encode_no_slash bs)
    exact h
  unfold parse_peer_id
  rw [hlast]
  simp only [bs58_roundtrip bs hb, hid]

/-- Witness for the amended C3 at the address "/ip4/1.2.3.4/tcp/1" and the
identity peer id bytes [0, 0]. -/
theorem parse_peer_id_roundtrip_witness :
    parse_peer_id (['/', 'i', 'p', '4', '/', '1', '.', '2', '.', '3', '.', '4',
      '/', 't', 'c', 'p', '/', '1'] ++ p2pSep ++ bs58encode [0, 0]) = .ok [0, 0] :=
  parse_peer_id_roundtrip _ [0, 0] (by decide) rfl rfl

/-! The remaining claims: fingerprint, identity, event loop, configuration. -/

/-- Claim C1: the message fingerprint depends only on the payload bytes: two
gossipsub messages with byte-identical data fields get equal MessageIds
whatever their source, topic, or sequence number; as a pure function of the
data (DefaultHasher.new starts from fixed zero keys) it is deterministic. -/
theorem message_id_depends_only_on_data (m1 m2 : Message) (h : m1.data = m2.data) :
    message_id m1 = message_id m2 := by
  simp [message_id, h]

/-- Witness for C1 on two concrete messages sharing data but differing in
source, sequence number and topic. -/
theorem message_id_depends_only_on_data_witness :
    (Message.mk (some [1]) [104, 105] (some 7) "topic-a").data =
      (Message.mk none [104, 105] none "topic-b").data ∧
    message_id (Message.mk (some [1]) [104, 105] (some 7) "topic-a") =
      message_id (Message.mk none [104, 105] none "topic-b") :=
  ⟨rfl, message_id_depends_only_on_data _ _ rfl⟩

/-- Claim C4: identity derivation from a seed is deterministic: equal seeds
give equal keypairs (hence equal derived identifiers), and the derivation is
exactly Keccak-256 of the seed bytes fed to the Ed25519 key constructor. -/
theorem ed25519_from_seed_deterministic (s t : List Nat) (h : s = t) :
    ed25519_from_seed s = ed25519_from_seed t ∧
    ed25519_from_seed s = Keypair.ed25519_from_bytes (keccak256 s) :=
  ⟨h ▸ rfl, rfl⟩

/-- Witness for C4 at the concrete seed bytes of "abc". -/
theorem ed25519_from_seed_deterministic_witness :
    ed25519_from_seed [97, 98, 99] = ed25519_from_seed [97, 98, 99] ∧
    ed25519_from_seed [97, 98, 99] = Keypair.ed25519_from_bytes (keccak256 [97, 98, 99]) :=
  ed25519_from_seed_deterministic [97, 98, 99] [97, 98, 99] rfl

theorem keccak256_length (m : List Nat) : (keccak256 m).length = 32 := by
  simp [keccak256, u64ToLEBytes]

/-- Claim C9: the invalid-key-material branch is unreachable: for every seed,
ed25519_from_seed succeeds, because the Keccak-256 digest always has exactly
32 bytes and the key constructor accepts any 32-byte string. -/
theorem ed25519_from_seed_total (seed : List Nat) : (ed25519_from_seed seed).isOk = true := by
  simp [ed25519_from_seed, Keypair.ed25519_from_bytes, keccak256_length,
    Except.isOk, Except.toBool]

/-- Claim C6: the Kademlia query timeout configured in main.rs is exactly
5 * 60 = 300 seconds. -/
theorem query_timeout_is_five_minutes : mainKadConfig.queryTimeout = 300 := rfl

theorem foldl_add_addresses (p : PeerIdB) : ∀ (addrs : List String) (t : List (PeerIdB × String)),
    addrs.foldl (fun acc a => acc ++ [(p, a)]) t = t ++ addrs.map fun a => (p, a) := by
  intro addrs
  induction addrs with
  | nil => intro t; simp
  | cons a addrs ih =>
    intro t
    simp only [List.foldl_cons, List.map_cons]
    rw [ih]
    simp

/-- Claim C5: on an identify Received event, every address of the reported
listen-address list is forwarded to Kademlia add_address exactly when the
reported protocol list contains the Kademlia protocol name; when it is
absent the routing-table record is left unchanged. -/
theorem identify_adds_addresses_iff_kad_protocol
    (silent : Bool) (selfId : PeerIdB) (st : NodeState)
    (p : PeerIdB) (protos : List String) (addrs : List String) :
    (handleEvent silent selfId st (.identifyReceived p protos addrs)).1.kademliaAddresses =
      if protos.contains kadProtocolName then
        st.kademliaAddresses ++ addrs.map fun a => (p, a)
      else st.kademliaAddresses := by
  cases h : protos.contains kadProtocolName with
  | false =>
    have h2 : (protos.contains kadProtocolName = true) = False := by rw [h]; simp
    simp only [handleEvent, h2, if_false]
    rfl
  | true =>
    have h2 : (protos.contains kadProtocolName = true) = True := by rw [h]; simp
    simp only [handleEvent, h2, if_true]
    exact foldl_add_addresses p addrs st.kademliaAddresses

/-- Claim C8: an event matching no recognized arm prints the fallback line
exactly when the silent flag is false, and never changes the state. -/
theorem unrecognized_event_logged_iff_not_silent
    (silent : Bool) (selfId : PeerIdB) (st : NodeState) (tag : Nat) :
    ((handleEvent silent selfId st (.other tag)).2 ≠ [] ↔ silent = false) ∧
    (handleEvent silent selfId st (.other tag)).1 = st := by
  cases silent <;> simp [handleEvent]

/-- Witness for C8 at a concrete unrecognized event with silent off. -/
theorem unrecognized_event_logged_iff_not_silent_witness :
    ((handleEvent false [] ⟨[]⟩ (.other 0)).2 ≠ [] ↔ false = false) ∧
    (handleEvent false [] ⟨[]⟩ (.other 0)).1 = (⟨[]⟩ : NodeState) :=
  unrecognized_event_logged_iff_not_silent false [] ⟨[]⟩ 0

/-- Claim C7: a Kademlia bootstrap call that returns an error at startup is
not fatal: the program prints the failure notice and still reaches the event
loop (the phase returns ok rather than propagating an error), and bootstrap
is attempted only when a bootstrap target was supplied. -/
theorem bootstrap_failure_nonfatal (addr : List Char)
    (multiaddrOf : List Char → Except String Unit) (e : String)
    (h1 : (parse_peer_id addr).isOk = true) (h2 : (multiaddrOf addr).isOk = true) :
    bootstrapPhase (some addr) multiaddrOf (.error e) = .ok (true, [.bootstrapFailed]) ∧
    bootstrapPhase none multiaddrOf (.error e) = .ok (false, []) := by
  constructor
  · cases hp : parse_peer_id addr with
    | error err => rw [hp] at h1; exact absurd h1 (by simp [Except.isOk, Except.toBool])
    | ok v =>
      cases hm : multiaddrOf addr with
      | error err => rw [hm] at h2; exact absurd h2 (by simp [Except.isOk, Except.toBool])
      | ok u =>
        simp only [bootstrapPhase, hp, hm]
        rfl
  · rfl

/-- Witness for C7 at the concrete parsable target "11" with a multiaddr
oracle that succeeds and a failing bootstrap call. -/
theorem bootstrap_failure_nonfatal_witness :
    bootstrapPhase (some ['1', '1']) (fun _ => Except.ok ()) (.error "no known peers") =
      .ok (true, [.bootstrapFailed]) ∧
    bootstrapPhase none (fun _ => Except.ok ()) (.error "no known peers") = .ok (false, []) :=
  bootstrap_failure_nonfatal ['1', '1'] (fun _ => Except.ok ()) "no known peers" rfl rfl

end Chat

